import Mathlib

/-!
Verification of the document-ingestion pipeline of process-gpt-memento.

The development shallowly embeds the pure cores of:
  * `src/rag_chain.py` — `process_document_images` placeholder substitution;
  * `src/document_loader.py` — PDF page element serialization, chunk metadata
    assignment, and the `.hwpx` extraction branch of
    `_extract_text_from_hwp_or_hwpx`;
  * `src/vendor/extract_hwp/password.py` — `is_hwp5_password_protected`;
  * `src/vendor/extract_hwp/hwp5.py` — `_parse_text_from_stream` and
    `extract_text_from_hwp5`;
  * `src/vendor/extract_hwp/hwpx.py` — `extract_text_from_hwpx`.

Text is modeled as `List Char` (Python `str`), byte strings as `List Nat`
with each entry below 256.  File-system, zip, OLE and zlib access is modeled
by passing the already-read stream contents (and, for zlib, an abstract
`decompress` function) as explicit arguments.
-/

/-! ## Generic helpers -/

/-- `containsSub pat l` is true when `pat` occurs as a contiguous substring
of `l` (Python's `pat in l`). -/
def containsSub (pat : List Char) : List Char → Bool
  | [] => pat.isEmpty
  | c :: cs => pat.isPrefixOf (c :: cs) || containsSub pat cs

/-- Characters stripped by Python's `str.strip()` / matched by `\s`
(ASCII fragment: space, tab, newline, carriage return, vertical tab,
form feed). -/
def isPySpace (c : Char) : Bool :=
  c = ' ' || c = '\t' || c = '\n' || c = '\x0d' || c = '\x0b' || c = '\x0c'

/-- Python's `str.strip()`: drop leading and trailing whitespace. -/
def pyStrip (l : List Char) : List Char :=
  ((l.dropWhile isPySpace).reverse.dropWhile isPySpace).reverse

/-- `sep.join(parts)` from Python. -/
def joinSep (sep : List Char) (parts : List (List Char)) : List Char :=
  (List.intersperse sep parts).join

/-- Stable insertion into a sorted list: the new element goes after every
element strictly below it, hence before equal keys that were inserted
earlier (matching the stability of Python's `list.sort`). -/
def insertSorted (lt : α → α → Bool) (x : α) : List α → List α
  | [] => [x]
  | y :: ys => if lt y x then y :: insertSorted lt x ys else x :: y :: ys

/-- Stable sort (Python `sorted` / `list.sort`). -/
def sortWith (lt : α → α → Bool) : List α → List α
  | [] => []
  | x :: xs => insertSorted lt x (sortWith lt xs)

theorem insertSorted_perm (lt : α → α → Bool) (x : α) (l : List α) :
    (insertSorted lt x l).Perm (x :: l) := by
  induction l with
  | nil => simp [insertSorted]
  | cons y ys ih =>
    simp only [insertSorted]
    by_cases h : lt y x = true
    · simp only [h, if_true]
      exact (ih.cons y).trans (List.Perm.swap x y ys)
    · simp [h]

theorem sortWith_perm (lt : α → α → Bool) (l : List α) :
    (sortWith lt l).Perm l := by
  induction l with
  | nil => simp [sortWith]
  | cons x xs ih =>
    exact (insertSorted_perm lt x (sortWith lt xs)).trans (ih.cons x)

theorem insertSorted_pairwise (lt : α → α → Bool)
    (hasymm : ∀ a b, lt a b = true → lt b a = false)
    (htrans : ∀ a b c, lt b a = false → lt c b = false → lt c a = false)
    (x : α) (l : List α) :
    l.Pairwise (fun a b => lt b a = false) →
    (insertSorted lt x l).Pairwise (fun a b => lt b a = false) := by
  induction l with
  | nil => intro _; simp [insertSorted]
  | cons y ys ih =>
    intro hl
    rcases List.pairwise_cons.mp hl with ⟨hy, hys⟩
    simp only [insertSorted]
    by_cases h : lt y x = true
    · simp only [h, if_true]
      refine List.pairwise_cons.mpr ⟨?_, ih hys⟩
      intro z hz
      rcases List.mem_cons.mp ((insertSorted_perm lt x ys).mem_iff.mp hz) with hzx | hzys
      · rw [hzx]; exact hasymm y x h
      · exact hy z hzys
    · simp only [h, if_false]
      refine List.pairwise_cons.mpr ⟨?_, hl⟩
      intro z hz
      rcases List.mem_cons.mp hz with hzy | hzys
      · rw [hzy]; simpa using h
      · exact htrans x y z (by simpa using h) (hy z hzys)

theorem sortWith_pairwise (lt : α → α → Bool)
    (hasymm : ∀ a b, lt a b = true → lt b a = false)
    (htrans : ∀ a b c, lt b a = false → lt c b = false → lt c a = false)
    (l : List α) :
    (sortWith lt l).Pairwise (fun a b => lt b a = false) := by
  induction l with
  | nil => simp [sortWith]
  | cons x xs ih => exact insertSorted_pairwise lt hasymm htrans x _ ih

/-- Decimal digits of a natural number, most significant first
(the digits Python's `str(n)` / f-string interpolation emits). -/
def natDigitsAux : Nat → List Char → List Char
  | 0, acc => acc
  | n + 1, acc =>
    natDigitsAux ((n + 1) / 10) (Char.ofNat (48 + (n + 1) % 10) :: acc)
decreasing_by exact Nat.div_lt_self (Nat.succ_pos n) (by omega)

/-- Decimal representation of a natural number as characters. -/
def natDigits (n : Nat) : List Char :=
  if n = 0 then ['0'] else natDigitsAux n []

/-- Numeric value of a decimal digit string (used to model `int(...)` on the
digit groups captured by the placeholder regex). -/
def digitsVal (l : List Char) : Nat :=
  l.foldl (fun a c => 10 * a + (c.toNat - 48)) 0

/-- The value accumulated by folding the decimal digits of `n` onto `a`. -/
def pushVal (a : Nat) : Nat → Nat
  | 0 => a
  | n + 1 => 10 * pushVal a ((n + 1) / 10) + (n + 1) % 10
decreasing_by exact Nat.div_lt_self (Nat.succ_pos n) (by omega)

theorem char_ofNat_digit_toNat (r : Nat) (h : r < 10) :
    (Char.ofNat (48 + r)).toNat = 48 + r := by
  interval_cases r <;> decide

theorem foldl_natDigitsAux (n : Nat) : ∀ acc a,
    (natDigitsAux n acc).foldl (fun a c => 10 * a + (c.toNat - 48)) a =
      acc.foldl (fun a c => 10 * a + (c.toNat - 48)) (pushVal a n) := by
  induction n using Nat.strong_induction_on with
  | _ n ih =>
    intro acc a
    match n with
    | 0 => simp [natDigitsAux, pushVal]
    | m + 1 =>
      rw [natDigitsAux, ih ((m + 1) / 10) (Nat.div_lt_self (Nat.succ_pos m) (by omega))]
      simp only [List.foldl_cons, pushVal]
      rw [char_ofNat_digit_toNat ((m + 1) % 10) (Nat.mod_lt _ (by omega))]
      congr 1
      omega

theorem pushVal_zero (n : Nat) : pushVal 0 n = n := by
  induction n using Nat.strong_induction_on with
  | _ n ih =>
    match n with
    | 0 => simp [pushVal]
    | m + 1 =>
      rw [pushVal, ih ((m + 1) / 10) (Nat.div_lt_self (Nat.succ_pos m) (by omega))]
      omega

theorem digitsVal_natDigits (n : Nat) : digitsVal (natDigits n) = n := by
  by_cases h : n = 0
  · subst h; rfl
  · unfold natDigits digitsVal
    rw [if_neg h, foldl_natDigitsAux]
    exact pushVal_zero n

theorem natDigitsAux_mem (n : Nat) : ∀ acc, ∀ c ∈ natDigitsAux n acc,
    c ∈ acc ∨ c.isDigit = true := by
  induction n using Nat.strong_induction_on with
  | _ n ih =>
    intro acc c hc
    match n with
    | 0 =>
      rw [natDigitsAux] at hc
      exact .inl hc
    | m + 1 =>
      rw [natDigitsAux] at hc
      rcases ih ((m + 1) / 10) (Nat.div_lt_self (Nat.succ_pos m) (by omega)) _ c hc with h1 | h2
      · rcases List.mem_cons.mp h1 with he | ha
        · right
          rw [he]
          have hr : (m + 1) % 10 < 10 := Nat.mod_lt _ (by omega)
          interval_cases h : (m + 1) % 10 <;> decide
        · exact .inl ha
      · exact .inr h2

theorem natDigits_isDigit (n : Nat) : ∀ c ∈ natDigits n, c.isDigit = true := by
  intro c hc
  unfold natDigits at hc
  by_cases h : n = 0
  · rw [if_pos h] at hc
    rcases List.mem_singleton.mp hc with rfl
    decide
  · rw [if_neg h] at hc
    rcases natDigitsAux_mem n [] c hc with h1 | h2
    · exact absurd h1 (List.not_mem_nil c)
    · exact h2

theorem natDigitsAux_ne_nil (n : Nat) : ∀ acc, acc ≠ [] → natDigitsAux n acc ≠ [] := by
  induction n using Nat.strong_induction_on with
  | _ n ih =>
    intro acc hacc
    match n with
    | 0 =>
      rw [natDigitsAux]
      exact hacc
    | m + 1 =>
      rw [natDigitsAux]
      exact ih ((m + 1) / 10) (Nat.div_lt_self (Nat.succ_pos m) (by omega)) _ (by simp)

theorem natDigits_ne_nil (n : Nat) : natDigits n ≠ [] := by
  unfold natDigits
  by_cases h : n = 0
  · rw [if_pos h]; simp
  · rw [if_neg h]
    match n, h with
    | m + 1, _ =>
      rw [natDigitsAux]
      exact natDigitsAux_ne_nil ((m + 1) / 10) _ (by simp)

/-! ## OLE container model and the HWP5 password probe
(`src/vendor/extract_hwp/password.py`) -/

/-- `struct.unpack_from("<I", data, off)`: little-endian 32-bit read.
Callers in the embedded code only use it with at least 4 bytes available. -/
def u32le (data : List Nat) (off : Nat) : Nat :=
  data.getD off 0 + 256 * data.getD (off + 1) 0 + 65536 * data.getD (off + 2) 0 +
    16777216 * data.getD (off + 3) 0

/-- Model of an OLE compound file as seen through `olefile`: whether
`olefile.isOleFile` accepts it, and its named streams with their bytes. -/
structure OleFile where
  isOle : Bool
  streams : List (String × List Nat)

/-- `ole.exists(name)`. -/
def OleFile.hasStream (ole : OleFile) (name : String) : Bool :=
  ole.streams.any (fun s => s.1 == name)

/-- `ole.openstream(name).read()` (a missing stream reads as empty; the
embedded callers always guard with `hasStream` first). -/
def OleFile.openstream (ole : OleFile) (name : String) : List Nat :=
  match ole.streams.find? (fun s => s.1 == name) with
  | some s => s.2
  | none => []

def HWP5_FILE_HEADER_STREAM_NAME : String := "FileHeader"

def HWP5_SUMMARY_INFO_STREAM_NAME : String := "\x05HwpSummaryInformation"

/-- `is_hwp5_password_protected` from `password.py`: read at most 256 bytes of
`FileHeader`; fewer than 40 bytes ⇒ not protected; otherwise test bit 1 of the
little-endian 32-bit properties field at byte offset 36. -/
def is_hwp5_password_protected (ole : OleFile) : Bool :=
  if ole.isOle = false then false
  else if ole.hasStream HWP5_FILE_HEADER_STREAM_NAME = false then false
  else
    let header_data := (ole.openstream HWP5_FILE_HEADER_STREAM_NAME).take 256
    if header_data.length < 40 then false
    else decide ((u32le header_data 36) &&& 2 ≠ 0)

/-- C5: for an OLE file with a `FileHeader` stream, a header of fewer than 40
bytes is treated as not encrypted, and a header of at least 40 bytes is
reported protected exactly when bit 1 (0x02) of the little-endian 32-bit
properties field at byte offset 36 is set. -/
theorem C5_password_bit (ole : OleFile)
    (h1 : ole.isOle = true)
    (h2 : ole.hasStream HWP5_FILE_HEADER_STREAM_NAME = true) :
    (((ole.openstream HWP5_FILE_HEADER_STREAM_NAME).take 256).length < 40 →
        is_hwp5_password_protected ole = false) ∧
      (40 ≤ ((ole.openstream HWP5_FILE_HEADER_STREAM_NAME).take 256).length →
        (is_hwp5_password_protected ole = true ↔
          (u32le ((ole.openstream HWP5_FILE_HEADER_STREAM_NAME).take 256) 36) &&& 2 ≠ 0)) := by
  constructor
  · intro hlen
    unfold is_hwp5_password_protected
    rw [h1, h2]
    simp only [Bool.true_eq_false, if_false]
    rw [if_pos hlen]
  · intro hlen
    unfold is_hwp5_password_protected
    rw [h1, h2]
    simp only [Bool.true_eq_false, if_false]
    rw [if_neg (by omega)]
    exact decide_eq_true_iff

/-- A crafted HWP5 OLE file whose `FileHeader` properties field (byte offset
36, little-endian) is `0x00000002` — the encryption bit. -/
def oleProtectedSample : OleFile :=
  ⟨true, [("FileHeader", List.replicate 36 0 ++ [2, 0, 0, 0])]⟩

/-- A crafted HWP5 OLE file whose `FileHeader` properties field is
`0x00000000`. -/
def oleUnprotectedSample : OleFile :=
  ⟨true, [("FileHeader", List.replicate 40 0)]⟩

/-- Witness for C5: a 40-byte header with properties `0x00000002` is detected
as protected, and one with `0x00000000` is not. -/
theorem C5_password_bit_witness :
    is_hwp5_password_protected oleProtectedSample = true ∧
      is_hwp5_password_protected oleUnprotectedSample = false := by
  constructor
  · exact ((C5_password_bit oleProtectedSample rfl (by decide)).2 (by decide)).mpr (by decide)
  · have h := (C5_password_bit oleUnprotectedSample rfl (by decide)).2 (by decide)
    exact Bool.eq_false_iff.mpr (fun hT => absurd (h.mp hT) (by decide))

/-! ## HWP5 record stream parser (`src/vendor/extract_hwp/hwp5.py`) -/

def HWP5_PARA_TEXT_TAG_ID : Nat := 67

/-- The inner character loop of `_parse_text_from_stream` over the bytes of a
PARA_TEXT record: UTF-16LE code units two bytes at a time; codes 10/13 become
a newline, 9 a tab, other control codes are dropped, and codes ≥ 32 are kept
only inside the whitelisted script ranges.  A trailing odd byte is dropped
(`text_offset + 2 > len(record_data)` breaks the loop). -/
def decodeParaText : List Nat → List Char
  | b0 :: b1 :: rest =>
    let char_code := b0 + 256 * b1
    (if char_code < 32 then
      if char_code = 10 ∨ char_code = 13 then ['\n']
      else if char_code = 9 then ['\t']
      else []
    else if (0x20 ≤ char_code ∧ char_code ≤ 0x7E) ∨
        (0xAC00 ≤ char_code ∧ char_code ≤ 0xD7AF) ∨
        (0x3130 ≤ char_code ∧ char_code ≤ 0x318F) ∨
        (0xFF00 ≤ char_code ∧ char_code ≤ 0xFFEF) ∨
        (0x2000 ≤ char_code ∧ char_code ≤ 0x206F) then [Char.ofNat char_code]
    else []) ++ decodeParaText rest
  | _ => []

/-- `_parse_text_from_stream` from `hwp5.py`, returning the list of texts the
generator yields.  Each iteration reads a 4-byte little-endian record header
(`tag_id` = low 10 bits, `size` = bits 20–31); an unreadable header breaks the
loop, a size of 0 or one overrunning the buffer skips the header only, and
only `tag_id` 67 (PARA_TEXT) records yield text. -/
def _parse_text_from_stream (data : List Nat) : List (List Char) :=
  if _h : data.length < 4 then []
  else
    let header_value := u32le data 0
    let tag_id := header_value &&& 0x3FF
    let size := (header_value >>> 20) &&& 0xFFF
    let rest := data.drop 4
    if size = 0 ∨ rest.length < size then _parse_text_from_stream rest
    else if tag_id = HWP5_PARA_TEXT_TAG_ID then
      decodeParaText (rest.take size) :: _parse_text_from_stream (rest.drop size)
    else
      _parse_text_from_stream (rest.drop size)
termination_by data.length
decreasing_by
  all_goals (simp only [List.length_drop]; omega)

/-- Little-endian byte serialization of a 32-bit value (how the record header
word sits in the section stream). -/
def le32 (v : Nat) : List Nat :=
  [v % 256, v / 256 % 256, v / 65536 % 256, v / 16777216 % 256]

/-- A 4-byte HWP5 record header with `tag_id` in the low 10 bits, the level
field in bits 10–19, and `size` in bits 20–31. -/
def encodeRecordHeader (tag_id level size : Nat) : List Nat :=
  le32 (tag_id + 1024 * level + 1048576 * size)

theorem u32le_le32 (v : Nat) (rest : List Nat) :
    u32le (le32 v ++ rest) 0 = v % 4294967296 := by
  simp only [le32, List.cons_append, List.nil_append, u32le, List.getD_cons_zero,
    List.getD_cons_succ]
  omega

theorem header_extract (tag level size : Nat)
    (ht : tag < 1024) (hl : level < 1024) (hs : size < 4096) :
    ((tag + 1024 * level + 1048576 * size) % 4294967296) &&& 0x3FF = tag ∧
      (((tag + 1024 * level + 1048576 * size) % 4294967296) >>> 20) &&& 0xFFF = size := by
  have hv : (tag + 1024 * level + 1048576 * size) % 4294967296 =
      tag + 1024 * level + 1048576 * size := Nat.mod_eq_of_lt (by omega)
  rw [hv]
  constructor
  · rw [show (0x3FF : Nat) = 2 ^ 10 - 1 by norm_num, Nat.and_pow_two_sub_one_eq_mod]
    omega
  · rw [Nat.shiftRight_eq_div_pow,
      show (0xFFF : Nat) = 2 ^ 12 - 1 by norm_num, Nat.and_pow_two_sub_one_eq_mod]
    omega

/-- C6: while parsing a HWP5 section stream, a record whose declared `size` is
0 or would overrun the remaining buffer is skipped by advancing past its
4-byte header only; parsing continues exactly as it would on the rest of the
buffer, so one oversized record never aborts the other records of the
section. -/
theorem C6_record_resilience (tag level size : Nat) (rest : List Nat)
    (ht : tag < 1024) (hl : level < 1024) (hs : size < 4096)
    (hbad : size = 0 ∨ rest.length < size) :
    _parse_text_from_stream (encodeRecordHeader tag level size ++ rest) =
      _parse_text_from_stream rest := by
  have hlen : ¬ (encodeRecordHeader tag level size ++ rest).length < 4 := by
    simp [encodeRecordHeader, le32]
  have hdrop : (encodeRecordHeader tag level size ++ rest).drop 4 = rest := by
    simp [encodeRecordHeader, le32]
  obtain ⟨htag, hsize⟩ := header_extract tag level size ht hl hs
  rw [_parse_text_from_stream, dif_neg hlen]
  simp only [encodeRecordHeader] at hdrop ⊢
  simp only [u32le_le32, hdrop, htag, hsize]
  rw [if_pos hbad]

/-- C7: only PARA_TEXT records (tag 67) contribute text, and their payload is
decoded two bytes at a time as UTF-16LE code units — 10 and 13 map to a
newline, 9 to a tab, other code units below 32 are dropped, and a code unit at
or above 32 is kept exactly when it lies in the basic-Latin, Hangul-syllable,
Hangul-Jamo, full-width or general-punctuation ranges. -/
theorem C7_para_text_decoding :
    (∀ b0 b1 (rest : List Nat),
      decodeParaText (b0 :: b1 :: rest) =
        (if b0 + 256 * b1 = 10 ∨ b0 + 256 * b1 = 13 then ['\n']
         else if b0 + 256 * b1 = 9 then ['\t']
         else if b0 + 256 * b1 < 32 then []
         else if (0x20 ≤ b0 + 256 * b1 ∧ b0 + 256 * b1 ≤ 0x7E) ∨
             (0xAC00 ≤ b0 + 256 * b1 ∧ b0 + 256 * b1 ≤ 0xD7AF) ∨
             (0x3130 ≤ b0 + 256 * b1 ∧ b0 + 256 * b1 ≤ 0x318F) ∨
             (0xFF00 ≤ b0 + 256 * b1 ∧ b0 + 256 * b1 ≤ 0xFFEF) ∨
             (0x2000 ≤ b0 + 256 * b1 ∧ b0 + 256 * b1 ≤ 0x206F) then
           [Char.ofNat (b0 + 256 * b1)]
         else []) ++ decodeParaText rest) ∧
    (∀ tag level (payload rest : List Nat), tag < 1024 → level < 1024 →
      0 < payload.length → payload.length < 4096 →
      _parse_text_from_stream
          (encodeRecordHeader tag level payload.length ++ (payload ++ rest)) =
        (if tag = HWP5_PARA_TEXT_TAG_ID then [decodeParaText payload] else []) ++
          _parse_text_from_stream rest) := by
  constructor
  · intro b0 b1 rest
    rw [decodeParaText]
    congr 1
    split_ifs <;> first | rfl | omega
  · intro tag level payload rest ht hl hp0 hp1
    have hlen : ¬ (encodeRecordHeader tag level payload.length ++ (payload ++ rest)).length < 4 := by
      simp [encodeRecordHeader, le32]
    have hdrop : (encodeRecordHeader tag level payload.length ++ (payload ++ rest)).drop 4 =
        payload ++ rest := by
      simp [encodeRecordHeader, le32]
    obtain ⟨htag, hsize⟩ := header_extract tag level payload.length ht hl hp1
    have hcond : ¬ (payload.length = 0 ∨ (payload ++ rest).length < payload.length) := by
      simp only [List.length_append]
      omega
    rw [_parse_text_from_stream, dif_neg hlen]
    simp only [encodeRecordHeader] at hdrop ⊢
    simp only [u32le_le32, hdrop, htag, hsize]
    rw [if_neg hcond]
    rw [List.take_left, List.drop_left]
    by_cases h67 : tag = HWP5_PARA_TEXT_TAG_ID
    · rw [if_pos h67, if_pos h67, List.singleton_append]
    · rw [if_neg h67, if_neg h67, List.nil_append]

/-- Witness for C6: a record declaring size 4095 with only a 6-byte buffer
after it is skipped header-only, and the valid PARA_TEXT record that follows
is still parsed (yielding "A"). -/
theorem C6_record_resilience_witness :
    _parse_text_from_stream
        (encodeRecordHeader 67 0 4095 ++ (encodeRecordHeader 67 0 2 ++ [65, 0])) =
      _parse_text_from_stream (encodeRecordHeader 67 0 2 ++ [65, 0]) ∧
    _parse_text_from_stream (encodeRecordHeader 67 0 2 ++ [65, 0]) = [['A']] := by
  constructor
  · exact C6_record_resilience 67 0 4095 (encodeRecordHeader 67 0 2 ++ [65, 0])
      (by decide) (by decide) (by decide) (by right; decide)
  · simp +decide [_parse_text_from_stream, encodeRecordHeader, le32, u32le, decodeParaText]

/-- Witness for C7: code unit 65 ('A') is kept, and a record with tag 66
(not PARA_TEXT) contributes no text. -/
theorem C7_para_text_decoding_witness :
    decodeParaText [65, 0] = ['A'] ∧
    _parse_text_from_stream (encodeRecordHeader 66 0 2 ++ ([65, 0] ++ [])) = [] := by
  constructor
  · rw [C7_para_text_decoding.1 65 0 []]
    decide
  · have h := C7_para_text_decoding.2 66 0 [65, 0] [] (by decide) (by decide) (by decide) (by decide)
    norm_num at h
    simp only [List.append_nil]
    rw [h]
    simp +decide [_parse_text_from_stream, HWP5_PARA_TEXT_TAG_ID]

/-- `HWP5_BODY_TEXT_STREAM_NAME.format(i)`. -/
def HWP5_BODY_TEXT_STREAM_NAME (i : Nat) : String :=
  "BodyText/Section" ++ Nat.repr i

/-- The `while True` section-discovery loop of `extract_text_from_hwp5`:
probe `BodyText/Section0`, `Section1`, … until a name is missing, parsing each
stream after decompression.  The loop is given `ole.streams.length + 1` fuel:
the probed names are pairwise distinct, so at most `ole.streams.length`
consecutive probes can succeed and the loop always stops within the fuel,
making this the exact behaviour of the unbounded loop. -/
def hwp5SectionLoop (decompress : List Nat → List Nat) (ole : OleFile) :
    Nat → Nat → List (List Char)
  | 0, _ => []
  | fuel + 1, idx =>
    if ole.hasStream (HWP5_BODY_TEXT_STREAM_NAME idx) then
      _parse_text_from_stream (decompress (ole.openstream (HWP5_BODY_TEXT_STREAM_NAME idx))) ++
        hwp5SectionLoop decompress ole fuel (idx + 1)
    else []

/-- `extract_text_from_hwp5` from `hwp5.py`: requires the OLE signature, the
`FileHeader` stream and the `\x05HwpSummaryInformation` stream, then joins the
text of every `BodyText/Section{N}` stream and strips the result.  zlib
decompression (`zlib.decompress` with its two wbits fallbacks) is abstracted
as the `decompress` argument. -/
def extract_text_from_hwp5 (decompress : List Nat → List Nat) (ole : OleFile) : List Char :=
  if ole.isOle = false then []
  else if ole.hasStream HWP5_FILE_HEADER_STREAM_NAME = false then []
  else if ole.hasStream HWP5_SUMMARY_INFO_STREAM_NAME = false then []
  else
    pyStrip (hwp5SectionLoop decompress ole (ole.streams.length + 1) 0).join

/-- C10: when the `\x05HwpSummaryInformation` stream is absent,
`extract_text_from_hwp5` returns the empty string without parsing any
BodyText section, whatever other streams are present. -/
theorem C10_summary_required (decompress : List Nat → List Nat) (ole : OleFile)
    (h : ole.hasStream HWP5_SUMMARY_INFO_STREAM_NAME = false) :
    extract_text_from_hwp5 decompress ole = [] := by
  by_cases h1 : ole.isOle = false <;>
    by_cases h2 : ole.hasStream HWP5_FILE_HEADER_STREAM_NAME = false <;>
    simp [extract_text_from_hwp5, h1, h2, h]

/-- An OLE file with a valid `FileHeader` and a `BodyText/Section0` stream
holding one PARA_TEXT record ("A"), but no `\x05HwpSummaryInformation`
stream. -/
def oleNoSummarySample : OleFile :=
  ⟨true, [("FileHeader", List.replicate 256 0),
          ("BodyText/Section0", encodeRecordHeader 67 0 2 ++ [65, 0])]⟩

/-- Witness for C10: the sample has a parseable PARA_TEXT record in
`BodyText/Section0`, yet extraction returns the empty string because the
summary stream is missing. -/
theorem C10_summary_required_witness :
    extract_text_from_hwp5 (fun b => b) oleNoSummarySample = [] ∧
    _parse_text_from_stream (oleNoSummarySample.openstream "BodyText/Section0") = [['A']] := by
  constructor
  · exact C10_summary_required (fun b => b) oleNoSummarySample (by decide)
  · have h1 : oleNoSummarySample.openstream "BodyText/Section0" =
        encodeRecordHeader 67 0 2 ++ [65, 0] := by rfl
    rw [h1]
    simp +decide [_parse_text_from_stream, encodeRecordHeader, le32, u32le, decodeParaText]

/-! ## Image placeholder linking (`process_document_images` in
`src/rag_chain.py`) -/

/-- The opaque marker that opens every placeholder token. -/
def IMAGE_PLACEHOLDER_MARKER : List Char := "__IMAGE_PLACEHOLDER_".toList

/-- The token `f"__IMAGE_PLACEHOLDER_p{page}_i{index}__"` emitted by
`_load_pdf_with_pdfplumber` in `src/document_loader.py`. -/
def imagePlaceholderToken (page idx : Nat) : List Char :=
  "__IMAGE_PLACEHOLDER_p".toList ++ natDigits page ++ "_i".toList ++ natDigits idx ++
    "__".toList

/-- Strip an exact literal from the head of the text. -/
def dropLit : List Char → List Char → Option (List Char)
  | [], l => some l
  | _ :: _, [] => none
  | p :: ps, c :: cs => if c = p then dropLit ps cs else none

/-- Longest digit run at the head of the text (the greedy `(\d+)` capture
groups of `placeholder_re`). -/
def spanDigits : List Char → List Char × List Char
  | [] => ([], [])
  | c :: cs =>
    if c.isDigit then
      let r := spanDigits cs
      (c :: r.1, r.2)
    else ([], c :: cs)

/-- One attempted match of
`placeholder_re = __IMAGE_PLACEHOLDER_p(\d+)_i(\d+)__` at the current
position, returning the two captured numbers and the remaining text.  The
digit groups are greedy and each is followed by a non-digit literal, so the
maximal digit run is the only viable capture — this scanner is exactly the
regex engine's behaviour on this pattern. -/
def matchPlaceholder (l : List Char) : Option (Nat × Nat × List Char) :=
  (dropLit "__IMAGE_PLACEHOLDER_p".toList l).bind fun r1 =>
    if (spanDigits r1).1 = [] then none
    else
      (dropLit "_i".toList (spanDigits r1).2).bind fun r3 =>
        if (spanDigits r3).1 = [] then none
        else
          (dropLit "__".toList (spanDigits r3).2).bind fun r5 =>
            some (digitsVal (spanDigits r1).1, digitsVal (spanDigits r3).1, r5)

/-- `make_replacer(placeholder_map)` from `process_document_images`: a mapped
`(page, index)` is replaced by `f"[이미지: {page}페이지 이미지{idx + 1}]\n{analysis_text}"`,
an unmapped one by the empty string. -/
def make_replacer (pmap : Nat → Nat → Option (List Char)) (page idx : Nat) : List Char :=
  match pmap page idx with
  | some analysis_text =>
    "[이미지: ".toList ++ natDigits page ++ "페이지 이미지".toList ++
      natDigits (idx + 1) ++ "]\n".toList ++ analysis_text
  | none => []

theorem dropLit_length : ∀ ps l r, dropLit ps l = some r → r.length + ps.length = l.length := by
  intro ps
  induction ps with
  | nil =>
    intro l r h
    rw [dropLit] at h
    cases h
    simp
  | cons p ps ih =>
    intro l r h
    cases l with
    | nil => exact absurd h (by rw [dropLit]; simp)
    | cons c cs =>
      rw [dropLit] at h
      by_cases hc : c = p
      · rw [if_pos hc] at h
        have := ih cs r h
        simp only [List.length_cons]
        omega
      · rw [if_neg hc] at h
        cases h

theorem spanDigits_length : ∀ l : List Char,
    (spanDigits l).1.length + (spanDigits l).2.length = l.length := by
  intro l
  induction l with
  | nil => simp [spanDigits]
  | cons c cs ih =>
    rw [spanDigits]
    by_cases hc : c.isDigit
    · simp only [hc, if_true, List.length_cons]
      omega
    · simp [hc]

theorem matchPlaceholder_length (l : List Char) (p i : Nat) (r : List Char)
    (h : matchPlaceholder l = some (p, i, r)) : r.length < l.length := by
  unfold matchPlaceholder at h
  cases h1 : dropLit "__IMAGE_PLACEHOLDER_p".toList l with
  | none => rw [h1] at h; simp at h
  | some r1 =>
    rw [h1] at h
    simp only [Option.some_bind] at h
    have hl1 := dropLit_length _ _ _ h1
    have hs1 := spanDigits_length r1
    by_cases hd1 : (spanDigits r1).1 = []
    · rw [if_pos hd1] at h; simp at h
    · rw [if_neg hd1] at h
      cases h2 : dropLit "_i".toList (spanDigits r1).2 with
      | none => rw [h2] at h; simp at h
      | some r3 =>
        rw [h2] at h
        simp only [Option.some_bind] at h
        have hl2 := dropLit_length _ _ _ h2
        have hs2 := spanDigits_length r3
        by_cases hd2 : (spanDigits r3).1 = []
        · rw [if_pos hd2] at h; simp at h
        · rw [if_neg hd2] at h
          cases h3 : dropLit "__".toList (spanDigits r3).2 with
          | none => rw [h3] at h; simp at h
          | some r5 =>
            rw [h3] at h
            simp only [Option.some_bind, Option.some.injEq, Prod.mk.injEq] at h
            obtain ⟨-, -, hr⟩ := h
            have hl3 := dropLit_length _ _ _ h3
            subst hr
            simp only [List.length_cons, List.length_nil] at hl1 hl2 hl3
            have hne : (spanDigits r1).1.length ≠ 0 := by
              simpa [List.length_eq_zero] using hd1
            omega

/-- `placeholder_re.sub(make_replacer(placeholder_map), text)`: scan left to
right; at each position substitute the first (leftmost, non-overlapping)
match and continue after it, otherwise keep the character. -/
def placeholder_sub (pmap : Nat → Nat → Option (List Char)) : List Char → List Char
  | [] => []
  | c :: cs =>
    match h : matchPlaceholder (c :: cs) with
    | some (page, idx, rest) => make_replacer pmap page idx ++ placeholder_sub pmap rest
    | none => c :: placeholder_sub pmap cs
termination_by l => l.length
decreasing_by
  · exact matchPlaceholder_length _ _ _ _ h
  · simp

theorem dropLit_self : ∀ ps r : List Char, dropLit ps (ps ++ r) = some r := by
  intro ps
  induction ps with
  | nil => intro r; rw [List.nil_append, dropLit]
  | cons p ps ih =>
    intro r
    rw [List.cons_append, dropLit, if_pos rfl]
    exact ih r

theorem spanDigits_of_digits (d : List Char) (r : List Char)
    (hd : ∀ c ∈ d, c.isDigit = true)
    (hr : ∀ c cs, r = c :: cs → c.isDigit = false) :
    spanDigits (d ++ r) = (d, r) := by
  induction d with
  | nil =>
    rw [List.nil_append]
    cases r with
    | nil => rw [spanDigits]
    | cons c cs =>
      rw [spanDigits, if_neg]
      rw [hr c cs rfl]
      simp
  | cons c cs ih =>
    rw [List.cons_append, spanDigits,
      if_pos (hd c (List.mem_cons_self c cs)),
      ih (fun x hx => hd x (List.mem_cons_of_mem c hx))]

theorem matchPlaceholder_token (page idx : Nat) (rest : List Char) :
    matchPlaceholder (imagePlaceholderToken page idx ++ rest) =
      some (page, idx, rest) := by
  unfold matchPlaceholder imagePlaceholderToken
  rw [List.append_assoc, List.append_assoc, List.append_assoc, List.append_assoc,
    dropLit_self, Option.some_bind]
  have hsp1 : spanDigits (natDigits page ++
      ("_i".toList ++ (natDigits idx ++ ("__".toList ++ rest)))) =
      (natDigits page, "_i".toList ++ (natDigits idx ++ ("__".toList ++ rest))) := by
    apply spanDigits_of_digits _ _ (natDigits_isDigit page)
    intro c cs h
    have : c = '_' := by
      have : "_i".toList ++ (natDigits idx ++ ("__".toList ++ rest)) =
          '_' :: ('i' :: (natDigits idx ++ ("__".toList ++ rest))) := rfl
      rw [this] at h
      exact (List.cons.injEq _ _ _ _ ▸ h).1.symm ▸ rfl
    rw [this]
    decide
  rw [hsp1]
  rw [if_neg (natDigits_ne_nil page)]
  rw [dropLit_self, Option.some_bind]
  have hsp2 : spanDigits (natDigits idx ++ ("__".toList ++ rest)) =
      (natDigits idx, "__".toList ++ rest) := by
    apply spanDigits_of_digits _ _ (natDigits_isDigit idx)
    intro c cs h
    have : c = '_' := by
      have heq : "__".toList ++ rest = '_' :: ('_' :: rest) := rfl
      rw [heq] at h
      exact ((List.cons.injEq _ _ _ _ ▸ h).1).symm ▸ rfl
    rw [this]
    decide
  rw [hsp2]
  rw [if_neg (natDigits_ne_nil idx)]
  rw [dropLit_self, Option.some_bind, digitsVal_natDigits, digitsVal_natDigits]

theorem matchPlaceholder_ne_underscore (c : Char) (cs : List Char) (hc : c ≠ '_') :
    matchPlaceholder (c :: cs) = none := by
  unfold matchPlaceholder
  have : dropLit "__IMAGE_PLACEHOLDER_p".toList (c :: cs) = none := by
    have h0 : "__IMAGE_PLACEHOLDER_p".toList =
        '_' :: "_IMAGE_PLACEHOLDER_p".toList := rfl
    rw [h0, dropLit, if_neg hc]
  rw [this, Option.none_bind]

theorem placeholder_sub_match (pmap : Nat → Nat → Option (List Char))
    (c : Char) (cs : List Char) (page idx : Nat) (rest : List Char)
    (h : matchPlaceholder (c :: cs) = some (page, idx, rest)) :
    placeholder_sub pmap (c :: cs) =
      make_replacer pmap page idx ++ placeholder_sub pmap rest := by
  rw [placeholder_sub]
  split
  · rename_i p' i' r' h'
    rw [h'] at h
    cases h
    rfl
  · rename_i h'
    rw [h'] at h
    cases h

theorem placeholder_sub_skip (pmap : Nat → Nat → Option (List Char))
    (c : Char) (cs : List Char) (h : matchPlaceholder (c :: cs) = none) :
    placeholder_sub pmap (c :: cs) = c :: placeholder_sub pmap cs := by
  rw [placeholder_sub]
  split
  · rename_i p' i' r' h'
    rw [h'] at h
    cases h
  · rfl

theorem placeholder_sub_clean (pmap : Nat → Nat → Option (List Char))
    (s t : List Char) (hs : ∀ c ∈ s, c ≠ '_') :
    placeholder_sub pmap (s ++ t) = s ++ placeholder_sub pmap t := by
  induction s with
  | nil => simp
  | cons c cs ih =>
    rw [List.cons_append,
      placeholder_sub_skip pmap c (cs ++ t)
        (matchPlaceholder_ne_underscore c _ (hs c (List.mem_cons_self c cs))),
      ih (fun x hx => hs x (List.mem_cons_of_mem c hx)), List.cons_append]

theorem placeholder_sub_token (pmap : Nat → Nat → Option (List Char))
    (page idx : Nat) (rest : List Char) :
    placeholder_sub pmap (imagePlaceholderToken page idx ++ rest) =
      make_replacer pmap page idx ++ placeholder_sub pmap rest := by
  have hshape : imagePlaceholderToken page idx ++ rest =
      '_' :: ("_IMAGE_PLACEHOLDER_p".toList ++ natDigits page ++ "_i".toList ++
        natDigits idx ++ "__".toList ++ rest) := by
    simp [imagePlaceholderToken]
  have hm := matchPlaceholder_token page idx rest
  rw [hshape] at hm ⊢
  exact placeholder_sub_match pmap _ _ page idx rest hm

/-- The shape of a PDF-derived chunk text as `_load_pdf_with_pdfplumber`
builds it: leading plain text, then placeholder tokens, each followed by
plain text. -/
def renderChunkText (pre : List Char) (items : List (Nat × Nat × List Char)) : List Char :=
  pre ++ (items.map fun x => imagePlaceholderToken x.1 x.2.1 ++ x.2.2).join

theorem placeholder_sub_join (pmap : Nat → Nat → Option (List Char))
    (items : List (Nat × Nat × List Char))
    (hseg : ∀ x ∈ items, ∀ c ∈ x.2.2, c ≠ '_') :
    placeholder_sub pmap (items.map fun x => imagePlaceholderToken x.1 x.2.1 ++ x.2.2).join =
      (items.map fun x => make_replacer pmap x.1 x.2.1 ++ x.2.2).join := by
  induction items with
  | nil => simp only [List.map_nil, List.join_nil]; rw [placeholder_sub]
  | cons x xs ih =>
    simp only [List.map_cons, List.join_cons]
    rw [List.append_assoc, placeholder_sub_token, List.append_assoc]
    congr 1
    rw [placeholder_sub_clean pmap _ _ (hseg x (List.mem_cons_self x xs)),
      ih (fun y hy => hseg y (List.mem_cons_of_mem x hy))]

theorem containsSub_eq_false_of_no_underscore (l : List Char)
    (h : ∀ c ∈ l, c ≠ '_') :
    containsSub IMAGE_PLACEHOLDER_MARKER l = false := by
  induction l with
  | nil => rfl
  | cons c cs ih =>
    rw [containsSub]
    have h1 : IMAGE_PLACEHOLDER_MARKER.isPrefixOf (c :: cs) = false := by
      have hm : IMAGE_PLACEHOLDER_MARKER =
          '_' :: "_IMAGE_PLACEHOLDER_".toList := rfl
      rw [hm, List.isPrefixOf]
      have : ('_' == c) = false := by
        have := h c (List.mem_cons_self c cs)
        simp [BEq.beq]
        exact fun hc => absurd hc.symm this
      rw [this, Bool.false_and]
    rw [h1, Bool.false_or]
    exact ih (fun x hx => h x (List.mem_cons_of_mem c hx))

theorem isDigit_ne_underscore (c : Char) (h : c.isDigit = true) : c ≠ '_' := by
  intro hc
  rw [hc] at h
  exact absurd h (by decide)

/-- C1: running the placeholder substitution of `process_document_images` on
a chunk whose text interleaves plain segments (containing no underscore, so
no stray marker fragments) with well-formed placeholder tokens replaces every
token exactly once — with `[이미지: {page}페이지 이미지{index+1}]\n{caption}`
when `(page, index)` has a caption and with the empty string otherwise — and
leaves no `__IMAGE_PLACEHOLDER_` substring in the final text (captions are
assumed not to contain underscores either). -/
theorem C1_placeholder_roundtrip (pmap : Nat → Nat → Option (List Char))
    (pre : List Char) (items : List (Nat × Nat × List Char))
    (hpre : ∀ c ∈ pre, c ≠ '_')
    (hseg : ∀ x ∈ items, ∀ c ∈ x.2.2, c ≠ '_')
    (hcap : ∀ page idx cap, pmap page idx = some cap → ∀ c ∈ cap, c ≠ '_') :
    placeholder_sub pmap (renderChunkText pre items) =
      pre ++ (items.map fun x => make_replacer pmap x.1 x.2.1 ++ x.2.2).join ∧
    containsSub IMAGE_PLACEHOLDER_MARKER
      (placeholder_sub pmap (renderChunkText pre items)) = false := by
  have heq : placeholder_sub pmap (renderChunkText pre items) =
      pre ++ (items.map fun x => make_replacer pmap x.1 x.2.1 ++ x.2.2).join := by
    rw [renderChunkText, placeholder_sub_clean pmap pre _ hpre,
      placeholder_sub_join pmap items hseg]
  refine ⟨heq, ?_⟩
  rw [heq]
  apply containsSub_eq_false_of_no_underscore
  intro c hc
  rcases List.mem_append.mp hc with hcpre | hcjoin
  · exact hpre c hcpre
  · rcases List.mem_join.mp hcjoin with ⟨piece, hpiece, hcpiece⟩
    rcases List.mem_map.mp hpiece with ⟨x, hx, rfl⟩
    rcases List.mem_append.mp hcpiece with hcrep | hcseg
    · -- characters of the replacement text
      rw [make_replacer] at hcrep
      cases hmap : pmap x.1 x.2.1 with
      | none =>
        rw [hmap] at hcrep
        exact absurd hcrep (List.not_mem_nil c)
      | some cap =>
        rw [hmap] at hcrep
        rcases List.mem_append.mp hcrep with hc1 | hccap
        · rcases List.mem_append.mp hc1 with hc2 | hc3
          · rcases List.mem_append.mp hc2 with hc4 | hc5
            · rcases List.mem_append.mp hc4 with hc6 | hc7
              · rcases List.mem_append.mp hc6 with hc8 | hc9
                · exact (by decide : ∀ x ∈ "[이미지: ".toList, x ≠ '_') c hc8
                · exact isDigit_ne_underscore c (natDigits_isDigit _ c hc9)
              · exact (by decide : ∀ x ∈ "페이지 이미지".toList, x ≠ '_') c hc7
            · exact isDigit_ne_underscore c (natDigits_isDigit _ c hc5)
          · exact (by decide : ∀ x ∈ "]\n".toList, x ≠ '_') c hc3
        · exact hcap x.1 x.2.1 cap hmap c hccap
    · exact hseg x hx c hcseg

/-- A caption map with a caption for page 1, image 0 only. -/
def c1CaptionMap : Nat → Nat → Option (List Char) :=
  fun page idx => if page = 1 ∧ idx = 0 then some "고양이 사진".toList else none

def c1Pre : List Char := "Hello\n\n".toList

def c1Items : List (Nat × Nat × List Char) :=
  [(1, 0, "\n\nWorld".toList), (1, 1, [])]

/-- Witness for C1: a chunk with two placeholder tokens, one captioned and
one not; both are replaced (the uncaptioned one by the empty string) and no
marker survives. -/
theorem C1_placeholder_roundtrip_witness :
    placeholder_sub c1CaptionMap (renderChunkText c1Pre c1Items) =
      c1Pre ++ (c1Items.map fun x => make_replacer c1CaptionMap x.1 x.2.1 ++ x.2.2).join ∧
    containsSub IMAGE_PLACEHOLDER_MARKER
      (placeholder_sub c1CaptionMap (renderChunkText c1Pre c1Items)) = false :=
  C1_placeholder_roundtrip c1CaptionMap c1Pre c1Items (by decide) (by decide)
    (by
      intro page idx cap h
      simp only [c1CaptionMap] at h
      by_cases hpi : page = 1 ∧ idx = 0
      · rw [if_pos hpi] at h
        cases h
        decide
      · rw [if_neg hpi] at h
        cases h)

/-! ## PDF layout reconstruction (`_load_pdf_with_pdfplumber` /
`_table_to_markdown` in `src/document_loader.py`) -/

/-- A page element as assembled by `_load_pdf_with_pdfplumber` before
sorting: a table (with its extracted grid), a text block, or an image
placeholder; `y` is the element's top coordinate (modeled as an integer). -/
inductive PdfElement where
  | text (y : Int) (content : List Char)
  | table (y : Int) (content : List (List (Option (List Char))))
  | image_placeholder (y : Int) (page_num_1based : Nat) (image_index : Nat)

def PdfElement.y : PdfElement → Int
  | .text y _ => y
  | .table y _ => y
  | .image_placeholder y _ _ => y

/-- `_table_to_markdown`: the first row becomes the header line, then the
`---` separator row (one per header cell), then the body rows; a `None` or
empty cell renders as the empty string. -/
def _table_to_markdown (table : List (List (Option (List Char)))) : List Char :=
  match table with
  | [] => []
  | header :: rows =>
    joinSep "\n".toList
      (("| ".toList ++ joinSep " | ".toList (header.map fun cell => cell.getD []) ++
          " |".toList) ::
        ("| ".toList ++ joinSep " | ".toList (header.map fun _ => "---".toList) ++
          " |".toList) ::
        rows.map fun row =>
          "| ".toList ++ joinSep " | ".toList (row.map fun cell => cell.getD []) ++
            " |".toList)

/-- One step of the `parts` loop of `_load_pdf_with_pdfplumber`: a text block
contributes its content when non-empty, a table its markdown when non-empty,
a placeholder always contributes its token. -/
def renderPdfElement : PdfElement → List (List Char)
  | .text _ content => if content = [] then [] else [content]
  | .table _ content =>
    if _table_to_markdown content = [] then [] else [_table_to_markdown content]
  | .image_placeholder _ page idx => [imagePlaceholderToken page idx]

/-- Comparison used by `elements.sort(key=lambda x: x["y"])`. -/
def pdfYLt (a b : PdfElement) : Bool := decide (a.y < b.y)

/-- Per-page serialization of `_load_pdf_with_pdfplumber`: stable-sort the
elements by top coordinate, render each in order, join with blank lines. -/
def serialize_pdf_page (elements : List PdfElement) : List Char :=
  joinSep "\n\n".toList (((sortWith pdfYLt elements).map renderPdfElement).join)

/-- C2: the serialized page processes elements in ascending top-coordinate
order (the sorted list is an ascending permutation of the page's elements),
and on a page with a text block at top 50, an image anchor at top 75 and a
table at top 100 the output is the text block, then the placeholder token,
then the markdown pipe table. -/
theorem C2_element_ordering :
    (∀ elements : List PdfElement,
      (sortWith pdfYLt elements).Pairwise (fun a b => a.y ≤ b.y) ∧
      (sortWith pdfYLt elements).Perm elements) ∧
    serialize_pdf_page
        [PdfElement.table 100 [[some "a".toList, some "b".toList],
            [some "c".toList, some "d".toList]],
          PdfElement.text 50 "Intro".toList,
          PdfElement.image_placeholder 75 1 0] =
      "Intro\n\n__IMAGE_PLACEHOLDER_p1_i0__\n\n| a | b |\n| --- | --- |\n| c | d |".toList := by
  constructor
  · intro elements
    constructor
    · have hp := sortWith_pairwise pdfYLt
        (fun a b h => by simp only [pdfYLt, decide_eq_true_eq] at h; simp [pdfYLt]; omega)
        (fun a b c h1 h2 => by
          simp only [pdfYLt, decide_eq_false_iff_not] at h1 h2; simp [pdfYLt]; omega)
        elements
      exact hp.imp (fun h => by
        simp only [pdfYLt, decide_eq_false_iff_not] at h; omega)
    · exact sortWith_perm pdfYLt elements
  · simp +decide [serialize_pdf_page, sortWith, insertSorted, pdfYLt, renderPdfElement,
      _table_to_markdown, joinSep, imagePlaceholderToken, natDigits, natDigitsAux,
      PdfElement.y]

/-! ## Chunk metadata assignment (`process_documents` in
`src/document_loader.py`) -/

/-- A loaded Document, reduced to the fields the chunk-index claims need:
its text and a source tag (the metadata each produced chunk inherits). -/
structure Doc where
  source : String
  text : List Char
deriving DecidableEq

/-- A chunk after the metadata loop of `process_documents`. -/
structure Chunk where
  source : String
  text : List Char
  chunk_index : Nat
  total_chunks : Nat
deriving DecidableEq

/-- `text_splitter.split_documents(documents)`: each Document is split on its
own (`splitText` abstracts the splitter), every piece keeps its Document's
metadata, and the per-Document chunk lists are concatenated in order. -/
def split_documents (splitText : List Char → List (List Char)) (docs : List Doc) :
    List Doc :=
  (docs.map fun d => (splitText d.text).map fun t =>
    ({ source := d.source, text := t } : Doc)).join

/-- The `for i, chunk in enumerate(chunks)` loop of `process_documents`:
`chunk_index` is the position in the combined chunk list and `total_chunks`
is `len(chunks)` — both computed over the whole batch, not per Document. -/
def process_documents (splitText : List Char → List (List Char)) (docs : List Doc) :
    List Chunk :=
  (split_documents splitText docs).enum.map fun ic =>
    { source := ic.2.source, text := ic.2.text, chunk_index := ic.1,
      total_chunks := (split_documents splitText docs).length }

/-- The per-Document property asserted by C3: the chunks of one source form a
contiguous 0-based `chunk_index` range and carry that count as
`total_chunks`. -/
def perDocContiguous (result : List Chunk) (src : String) : Prop :=
  ((result.filter fun c => c.source == src).map fun c => c.chunk_index) =
    List.range (result.filter fun c => c.source == src).length ∧
  ∀ c ∈ result.filter fun c => c.source == src,
    c.total_chunks = (result.filter fun c => c.source == src).length

/-- Counterexample to C3 as stated: with two Documents that each split into a
single chunk, the second Document's only chunk gets `chunk_index = 1` (not 0)
and `total_chunks = 2` (not 1), because the loop enumerates the concatenated
chunk list of the whole batch. -/
theorem C3_counterexample :
    ¬ perDocContiguous
        (process_documents (fun t => [t])
          [{ source := "a", text := "x".toList }, { source := "b", text := "y".toList }])
        "b" := by
  unfold perDocContiguous
  decide

/-- C3 (amended): `chunk_index` is a contiguous 0-based range over the
concatenated chunk list of all Documents of the batch, and every chunk's
`total_chunks` is the batch-wide chunk count (the per-Document reading holds
only for a single-Document batch). -/
theorem C3_chunk_index_global (splitText : List Char → List (List Char))
    (docs : List Doc) :
    ((process_documents splitText docs).map fun c => c.chunk_index) =
      List.range (process_documents splitText docs).length ∧
    ∀ c ∈ process_documents splitText docs,
      c.total_chunks = (process_documents splitText docs).length := by
  have hlen : (process_documents splitText docs).length =
      (split_documents splitText docs).length := by
    simp [process_documents]
  constructor
  · rw [hlen]
    unfold process_documents
    rw [List.map_map]
    have hcomp : ((fun c : Chunk => c.chunk_index) ∘ fun ic : Nat × Doc =>
        ({ source := ic.2.source, text := ic.2.text, chunk_index := ic.1,
           total_chunks := (split_documents splitText docs).length } : Chunk)) =
        Prod.fst := rfl
    rw [hcomp, List.enum_map_fst]
  · intro c hc
    rw [hlen]
    unfold process_documents at hc
    rcases List.mem_map.mp hc with ⟨ic, _, rfl⟩
    rfl

/-! ## Chunker (`DocumentProcessor.__init__` /
`RecursiveCharacterTextSplitter`) -/

/-- Modelled from the spec: the splitting algorithm itself lives in
LangChain's `RecursiveCharacterTextSplitter`, an external dependency that is
not part of this repository's sources — `DocumentProcessor.__init__` only
configures it (`chunk_size`, `chunk_overlap`, the separator priority list
ending in `""`, and `len` as the length function).  The spec states the
resulting contract: chunks of at most `chunk_size` characters with
`chunk_overlap` characters of repeated trailing context between consecutive
chunks, counted in characters.  That contract is modeled as the sliding
character window produced by the always-applicable final `""` separator. -/
def split_text (chunk_size chunk_overlap : Nat) (t : List Char) : List (List Char) :=
  if chunk_size - chunk_overlap = 0 ∨ t.length ≤ chunk_size then [t]
  else
    t.take chunk_size ::
      split_text chunk_size chunk_overlap (t.drop (chunk_size - chunk_overlap))
termination_by t.length
decreasing_by
  simp only [List.length_drop]
  omega

/-- C4: every chunk is at most `chunk_size` characters long, and the chunk
lengths sum to at least the document length — the overlapping window repeats
content but never loses any. -/
theorem C4_chunk_lengths (chunk_size chunk_overlap : Nat) (t : List Char)
    (hov : chunk_overlap < chunk_size) :
    (∀ c ∈ split_text chunk_size chunk_overlap t, c.length ≤ chunk_size) ∧
    t.length ≤ ((split_text chunk_size chunk_overlap t).map List.length).sum := by
  suffices h : ∀ n (t : List Char), t.length = n →
      (∀ c ∈ split_text chunk_size chunk_overlap t, c.length ≤ chunk_size) ∧
      t.length ≤ ((split_text chunk_size chunk_overlap t).map List.length).sum by
    exact h t.length t rfl
  intro n
  induction n using Nat.strong_induction_on with
  | _ n ih =>
    intro t ht
    rw [split_text]
    by_cases hbase : chunk_size - chunk_overlap = 0 ∨ t.length ≤ chunk_size
    · rw [if_pos hbase]
      rcases hbase with h0 | hle
      · omega
      · refine ⟨?_, by simp⟩
        intro c hc
        rcases List.mem_singleton.mp hc with rfl
        exact hle
    · rw [if_neg hbase]
      push_neg at hbase
      obtain ⟨hstep, hlen⟩ := hbase
      have hrec := ih (t.drop (chunk_size - chunk_overlap)).length
        (by simp only [List.length_drop]; omega) _ rfl
      constructor
      · intro c hc
        rcases List.mem_cons.mp hc with rfl | hcs
        · simp only [List.length_take]
          omega
        · exact hrec.1 c hcs
      · obtain ⟨-, hsum⟩ := hrec
        simp only [List.length_drop] at hsum
        simp only [List.map_cons, List.sum_cons, List.length_take]
        omega

/-- Witness for C4 at the configured values `chunk_size = 2000`,
`chunk_overlap = 400`. -/
theorem C4_chunk_lengths_witness :
    400 < 2000 ∧
    ((∀ c ∈ split_text 2000 400 "hello world".toList, c.length ≤ 2000) ∧
      "hello world".toList.length ≤
        ((split_text 2000 400 "hello world".toList).map List.length).sum) :=
  ⟨by decide, C4_chunk_lengths 2000 400 "hello world".toList (by decide)⟩

/-! ## HWPX extraction (`src/vendor/extract_hwp/hwpx.py` and the `.hwpx`
branch of `_extract_text_from_hwp_or_hwpx` in `src/document_loader.py`) -/

/-- An XML element as `xml.etree.ElementTree` exposes it: tag, optional
text, children. -/
inductive Elem where
  | mk (tag : List Char) (text : Option (List Char)) (children : List Elem)

def Elem.tag : Elem → List Char
  | .mk t _ _ => t

def Elem.text : Elem → Option (List Char)
  | .mk _ x _ => x

mutual

/-- `element.iter()`: document-order traversal — the element itself followed
by its children's traversals. -/
def Elem.iter : Elem → List Elem
  | .mk t x cs => .mk t x cs :: Elem.iterList cs

def Elem.iterList : List Elem → List Elem
  | [] => []
  | c :: cs => Elem.iter c ++ Elem.iterList cs

end

/-- Python string `<` (lexicographic by code point), as used by `sorted`. -/
def lexLt (a b : List Char) : Bool := decide (a < b)

/-- A paragraph's text in `extract_text_from_hwpx`:
`"".join(node.text for node in p.iter() if node.tag.endswith('}t') and node.text)`. -/
def paragraphLine (p : Elem) : List Char :=
  (p.iter.map fun n =>
    if "\x7dt".toList.isSuffixOf n.tag then
      match n.text with
      | some s => if s = [] then [] else s
      | none => []
    else []).join

/-- The kept lines of one section: every `}p` element whose joined text has
non-whitespace content. -/
def sectionLines (root : Elem) : List (List Char) :=
  root.iter.filterMap fun p =>
    if "\x7dp".toList.isSuffixOf p.tag ∧ pyStrip (paragraphLine p) ≠ [] then
      some (paragraphLine p)
    else none

/-- `extract_text_from_hwpx` from `hwpx.py`, over the archive entries
`(name, parsed XML root)`: filter `Contents/section*.xml` names, sort them
lexicographically, newline-join each section's kept lines (skipping sections
with none), and join sections with a blank line.  With no matching section
file the raised `ValueError` is caught by the function's generic handler,
which returns the empty string. -/
def extract_text_from_hwpx (entries : List (List Char × Elem)) : List Char :=
  let section_files := sortWith (fun a b => lexLt a.1 b.1)
    (entries.filter fun e =>
      "Contents/section".toList.isPrefixOf e.1 && ".xml".toList.isSuffixOf e.1)
  if section_files.isEmpty then []
  else
    joinSep "\n\n".toList
      (section_files.filterMap fun e =>
        if (sectionLines e.2).isEmpty then none
        else some (joinSep "\n".toList (sectionLines e.2)))

theorem lexLt_asymm (a b : List Char) (h : lexLt a b = true) : lexLt b a = false := by
  simp only [lexLt, decide_eq_true_eq] at h
  simpa [lexLt] using lt_asymm h

theorem lexLt_negtrans (a b c : List Char)
    (h1 : lexLt b a = false) (h2 : lexLt c b = false) : lexLt c a = false := by
  simp only [lexLt, decide_eq_false_iff_not] at h1 h2
  simp only [lexLt, decide_eq_false_iff_not]
  exact fun hca => h1 (lt_of_le_of_lt (not_lt.mp h2) hca)

/-- A `<t>` text run (namespaced tag). -/
def hwpxT (s : List Char) : Elem := .mk "\x7bhp\x7dt".toList (some s) []

/-- A `<p>` paragraph holding one text run. -/
def hwpxP (s : List Char) : Elem := .mk "\x7bhp\x7dp".toList none [hwpxT s]

/-- A section root whose paragraphs hold the given lines. -/
def hwpxSec (lines : List (List Char)) : Elem :=
  .mk "\x7bhp\x7dsec".toList none (lines.map hwpxP)

/-- An HWPX archive with two section entries (listed out of order, plus a
non-section entry); section0 also contains a whitespace-only paragraph. -/
def hwpxSampleEntries : List (List Char × Elem) :=
  [("mimetype".toList, Elem.mk "m".toList none []),
   ("Contents/section1.xml".toList, hwpxSec ["Foo".toList, "Bar".toList]),
   ("Contents/section0.xml".toList,
     hwpxSec ["Hello".toList, "  ".toList, "World".toList])]

/-- C8: section entries are processed in lexicographic name order (the sorted
list is an ordered permutation of the `Contents/section*.xml` entries), and on
an archive whose two sections each hold two non-empty paragraphs (plus a
dropped whitespace-only one) the result is two blank-line-separated blocks of
two newline-joined lines each. -/
theorem C8_hwpx_section_order :
    (∀ entries : List (List Char × Elem),
      ((sortWith (fun a b => lexLt a.1 b.1) (entries.filter fun e =>
          "Contents/section".toList.isPrefixOf e.1 && ".xml".toList.isSuffixOf e.1)).map
          Prod.fst).Pairwise (fun a b => lexLt b a = false) ∧
      (sortWith (fun a b => lexLt a.1 b.1) (entries.filter fun e =>
          "Contents/section".toList.isPrefixOf e.1 && ".xml".toList.isSuffixOf e.1)).Perm
        (entries.filter fun e =>
          "Contents/section".toList.isPrefixOf e.1 && ".xml".toList.isSuffixOf e.1)) ∧
    extract_text_from_hwpx hwpxSampleEntries = "Hello\nWorld\n\nFoo\nBar".toList := by
  refine ⟨fun entries => ⟨?_, sortWith_perm _ _⟩, ?_⟩
  · rw [List.pairwise_map]
    exact sortWith_pairwise _
      (fun a b h => lexLt_asymm a.1 b.1 h)
      (fun a b c h1 h2 => lexLt_negtrans a.1 b.1 c.1 h1 h2)
      _
  · decide

/-- Try to match `[^>]+>` right after a `<`: the greedy non-`>` body must be
non-empty and must be followed by a closing `>`; returns the text after the
tag. -/
def tagEnd (cs : List Char) : Option (List Char) :=
  let body := cs.takeWhile (fun c => !(c == '>'))
  if body.isEmpty then none
  else
    match cs.drop body.length with
    | c :: r => if c = '>' then some r else none
    | [] => none

theorem tagEnd_length (cs r : List Char) (h : tagEnd cs = some r) :
    r.length < cs.length := by
  unfold tagEnd at h
  by_cases hb : (cs.takeWhile (fun c => !(c == '>'))).isEmpty
  · rw [if_pos hb] at h; cases h
  · rw [if_neg hb] at h
    have hlen : (cs.drop (cs.takeWhile (fun c => !(c == '>'))).length).length ≤ cs.length := by
      simp [List.length_drop]
    cases hd : cs.drop (cs.takeWhile (fun c => !(c == '>'))).length with
    | nil => rw [hd] at h; cases h
    | cons c rest =>
      rw [hd] at h
      rw [hd] at hlen
      rw [show (match c :: rest with
          | c :: r => if c = '>' then some r else none
          | [] => none) = (if c = '>' then some rest else none) from rfl] at h
      by_cases hc : c = '>'
      · rw [if_pos hc] at h
        cases h
        simp only [List.length_cons] at hlen
        omega
      · rw [if_neg hc] at h
        cases h

/-- `re.sub(r"<[^>]+>", " ", text)`: left-to-right scan; a `<` opening a
complete non-empty tag is replaced (with the tag body) by one space, any
other character — including a `<` with no closing `>` — is kept. -/
def stripTags : List Char → List Char
  | [] => []
  | c :: cs =>
    if c = '<' then
      match h : tagEnd cs with
      | some rest => ' ' :: stripTags rest
      | none => c :: stripTags cs
    else c :: stripTags cs
termination_by l => l.length
decreasing_by
  · exact Nat.lt_succ_of_lt (tagEnd_length _ _ h)
  · simp
  · simp

/-- `re.sub(r"\s+", " ", text)`: collapse every whitespace run to a single
space. -/
def collapseWs : List Char → List Char
  | [] => []
  | c :: cs =>
    if isPySpace c then ' ' :: collapseWs (cs.dropWhile isPySpace)
    else c :: collapseWs cs
termination_by l => l.length
decreasing_by
  · exact Nat.lt_succ_of_le (List.Sublist.length_le (List.dropWhile_sublist _))
  · simp

/-- ASCII `str.lower()` (zip entry names are ASCII paths). -/
def toLowerChar (c : Char) : Char :=
  if 'A' ≤ c ∧ c ≤ 'Z' then Char.ofNat (c.toNat + 32) else c

/-- A zip entry of the `.hwpx` branch of `_extract_text_from_hwp_or_hwpx`:
its path, its raw decoded bytes, and its parsed XML root. -/
structure HwpxEntry where
  name : List Char
  raw : List Char
  xml : Elem

/-- A paragraph line in the loader's own section walk:
`"".join((n.text or "") for n in elem.iter() if n.tag.endswith("}t"))`. -/
def loaderParagraphLine (p : Elem) : List Char :=
  (p.iter.map fun n =>
    if "\x7dt".toList.isSuffixOf n.tag then n.text.getD [] else []).join

/-- The kept lines of one section in the loader's walk. -/
def loaderSectionLines (root : Elem) : List (List Char) :=
  root.iter.filterMap fun p =>
    if "\x7dp".toList.isSuffixOf p.tag ∧ pyStrip (loaderParagraphLine p) ≠ [] then
      some (loaderParagraphLine p)
    else none

/-- The `.hwpx` branch of `_extract_text_from_hwp_or_hwpx`
(`src/document_loader.py`), returning the `(text, error_message)` pair: filter
entries whose path contains `Contents/section` and ends with `.xml`, sorted by
name; when none match, fall back to the first entry whose lowercased path
contains `contents` **and** ends with `.xml`, strip its tags with the regex
and collapse whitespace; when no such entry exists either, report an error. -/
def _extract_text_from_hwpx_branch (entries : List HwpxEntry) :
    Option (List Char) × Option (List Char) :=
  let section_files := sortWith (fun a b => lexLt a.name b.name)
    (entries.filter fun e =>
      containsSub "Contents/section".toList e.name && ".xml".toList.isSuffixOf e.name)
  if section_files.isEmpty then
    match entries.find? (fun e =>
        containsSub "contents".toList (e.name.map toLowerChar) &&
          ".xml".toList.isSuffixOf e.name) with
    | none => (none, some "HWPX: section or contents XML not found".toList)
    | some e => (some (pyStrip (collapseWs (stripTags e.raw))), none)
  else
    (some (joinSep "\n\n".toList
      (section_files.filterMap fun e =>
        if (loaderSectionLines e.xml).isEmpty then none
        else some (joinSep "\n".toList (loaderSectionLines e.xml)))), none)

/-- Counterexample to C9 as stated: an archive with no `Contents/section*.xml`
entry and a `contents.bin` entry — its path contains "contents"
case-insensitively, so the claim promises a tag-stripped degraded text, but
the code also requires the fallback entry to end in `.xml` and therefore
reports an error for this file. -/
theorem C9_counterexample :
    (([⟨"contents.bin".toList, "<a>hello</a>".toList, Elem.mk "r".toList none []⟩] :
        List HwpxEntry).filter fun e =>
      containsSub "Contents/section".toList e.name &&
        ".xml".toList.isSuffixOf e.name).isEmpty = true ∧
    containsSub "contents".toList ("contents.bin".toList.map toLowerChar) = true ∧
    _extract_text_from_hwpx_branch
        [⟨"contents.bin".toList, "<a>hello</a>".toList, Elem.mk "r".toList none []⟩] =
      (none, some "HWPX: section or contents XML not found".toList) :=
  ⟨rfl, rfl, rfl⟩

/-- C9 (amended): when no entry matches `Contents/section*.xml`, the loader
falls back to the first entry whose path contains "contents"
case-insensitively **and** ends with ".xml", strips tags from its raw text
with the regex, collapses whitespace, and returns that degraded text with no
error; only when no such entry exists either does it report a (non-fatal,
per-file) error. -/
theorem C9_contents_fallback (entries : List HwpxEntry) (e : HwpxEntry)
    (hsec : (entries.filter fun x =>
      containsSub "Contents/section".toList x.name &&
        ".xml".toList.isSuffixOf x.name) = [])
    (hfind : entries.find? (fun x =>
      containsSub "contents".toList (x.name.map toLowerChar) &&
        ".xml".toList.isSuffixOf x.name) = some e) :
    _extract_text_from_hwpx_branch entries =
      (some (pyStrip (collapseWs (stripTags e.raw))), none) := by
  unfold _extract_text_from_hwpx_branch
  rw [hsec]
  simp only [sortWith, List.isEmpty_nil, eq_self_iff_true, if_true]
  rw [hfind]

theorem stripTags_nil : stripTags [] = [] := by
  rw [stripTags]

theorem stripTags_tag (cs rest : List Char) (h : tagEnd cs = some rest) :
    stripTags ('<' :: cs) = ' ' :: stripTags rest := by
  rw [stripTags]
  rw [if_pos rfl]
  split
  · rename_i r h'
    rw [h'] at h
    cases h
    rfl
  · rename_i h'
    rw [h'] at h
    cases h

theorem stripTags_keep (c : Char) (cs : List Char) (h : c ≠ '<') :
    stripTags (c :: cs) = c :: stripTags cs := by
  rw [stripTags, if_neg h]

theorem collapseWs_nil : collapseWs [] = [] := by
  rw [collapseWs]

theorem collapseWs_space (c : Char) (cs : List Char) (h : isPySpace c = true) :
    collapseWs (c :: cs) = ' ' :: collapseWs (cs.dropWhile isPySpace) := by
  rw [collapseWs, if_pos h]

theorem collapseWs_keep (c : Char) (cs : List Char) (h : isPySpace c = false) :
    collapseWs (c :: cs) = c :: collapseWs cs := by
  rw [collapseWs, if_neg (by simp [h])]

/-- Witness for the amended C9: a `Contents.xml` entry (no section files
present) is tag-stripped, whitespace-collapsed and stripped into degraded
text. -/
theorem C9_contents_fallback_witness :
    _extract_text_from_hwpx_branch
        [⟨"Contents.xml".toList, "<a>hi</a>".toList, Elem.mk "r".toList none []⟩] =
      (some (pyStrip (collapseWs (stripTags "<a>hi</a>".toList))), none) ∧
    pyStrip (collapseWs (stripTags "<a>hi</a>".toList)) = "hi".toList := by
  constructor
  · exact C9_contents_fallback
      [⟨"Contents.xml".toList, "<a>hi</a>".toList, Elem.mk "r".toList none []⟩]
      ⟨"Contents.xml".toList, "<a>hi</a>".toList, Elem.mk "r".toList none []⟩
      rfl rfl
  · have hst : stripTags "<a>hi</a>".toList = " hi ".toList := by
      rw [show "<a>hi</a>".toList = '<' :: "a>hi</a>".toList from rfl,
        stripTags_tag "a>hi</a>".toList "hi</a>".toList rfl,
        show "hi</a>".toList = 'h' :: "i</a>".toList from rfl,
        stripTags_keep 'h' _ (by decide),
        show "i</a>".toList = 'i' :: "</a>".toList from rfl,
        stripTags_keep 'i' _ (by decide),
        show "</a>".toList = '<' :: "/a>".toList from rfl,
        stripTags_tag "/a>".toList [] rfl, stripTags_nil]
      decide
    rw [hst]
    have hcw : collapseWs " hi ".toList = " hi ".toList := by
      rw [show " hi ".toList = ' ' :: "hi ".toList from rfl,
        collapseWs_space ' ' _ (by decide)]
      rw [show List.dropWhile isPySpace "hi ".toList = 'h' :: "i ".toList from rfl,
        collapseWs_keep 'h' _ (by decide),
        show "i ".toList = 'i' :: " ".toList from rfl,
        collapseWs_keep 'i' _ (by decide),
        show " ".toList = ' ' :: ([] : List Char) from rfl,
        collapseWs_space ' ' _ (by decide)]
      rw [show List.dropWhile isPySpace ([] : List Char) = [] from rfl, collapseWs_nil]
      decide
    rw [hcw]
    decide
